import Mathlib

/-!
# Slugify (`github.com/tomihiltunen/slugify/slugify.go`)

A shallow embedding of the slug generator and the properties of its
specification.

Modelling conventions.

* A Go `string` is modelled by a Lean `String`, that is by the sequence of
  Unicode code points of its UTF-8 decoding; the inputs considered are the
  valid UTF-8 strings. `len` counts bytes, as in Go.
* Strings that are not valid UTF-8 are covered by `SlugBytes`, the same
  pipeline on a list of bytes: its first pass steps through the bytes as
  `utf8.DecodeRuneInString` does. On the bytes of a well-formed string it is
  `Slug` (`slugBytes_utf8`).
* The standard-library calls of `Slug` are modelled by their documented
  meaning on such strings: `regexp.ReplaceAllStringFunc` and
  `regexp.ReplaceAllString` for the two regular expressions of the source
  (a single character class, and one-or-more of a character class),
  `strings.TrimSpace` with the full `unicode.IsSpace` table, and
  `strings.ToLower`.
* `strings.ToLower` maps every code point through `unicode.ToLower`. On ASCII
  that is `A-Z ↦ a-z`; outside ASCII it is given by the Unicode case tables,
  which are not part of this repository: the mapping of the non-ASCII code
  points is the parameter `unicodeLower` of `Slug`, and every theorem holds
  for all values of it.
* A run-time panic (slice bounds out of range) is the result `none`.
* Go `int` is taken to be 64 bits wide; `length - 1` wraps around.
-/

namespace Slugify

/-! ## The transliteration table -/

/-- Dictionary of accented characters and their transliterations
(`var dictionary = map[string]string{...}`): the entries in source order. A Go
map literal has no duplicate keys, so looking a key up in this association
list is the map lookup. -/
def dictionary : List (String × String) :=
  [ ("Š", "S"), ("š", "s"), ("Đ", "Dj"), ("đ", "dj"), ("Ž", "Z"), ("ž", "z"),
    ("Č", "C"), ("č", "c"), ("Ć", "C"), ("ć", "c"),
    ("À", "A"), ("Á", "A"), ("Â", "A"), ("Ã", "A"), ("Ä", "A"), ("Å", "A"),
    ("Æ", "A"), ("Ç", "C"), ("È", "E"), ("É", "E"), ("Ê", "E"), ("Ë", "E"),
    ("Ì", "I"), ("Í", "I"), ("Î", "I"), ("Ï", "I"), ("Ñ", "N"),
    ("Ò", "O"), ("Ó", "O"), ("Ô", "O"), ("Õ", "O"), ("Ö", "O"), ("Ø", "O"),
    ("Ù", "U"), ("Ú", "U"), ("Û", "U"), ("Ü", "U"), ("Ý", "Y"), ("Þ", "B"),
    ("ß", "Ss"),
    ("à", "a"), ("á", "a"), ("â", "a"), ("ã", "a"), ("ä", "a"), ("å", "a"),
    ("æ", "a"), ("ç", "c"), ("è", "e"), ("é", "e"), ("ê", "e"), ("ë", "e"),
    ("ì", "i"), ("í", "i"), ("î", "i"), ("ï", "i"), ("ð", "o"), ("ñ", "n"),
    ("ò", "o"), ("ó", "o"), ("ô", "o"), ("õ", "o"), ("ö", "o"), ("ø", "o"),
    ("ù", "u"), ("ú", "u"), ("û", "u"), ("ý", "y"), ("þ", "b"), ("ÿ", "y"),
    ("Ŕ", "R"), ("ŕ", "r") ]

/-- Converts accented characters if found from the dictionary; otherwise
replaces the character with an empty string (`convertAccent`). -/
def convertAccent (found : String) : String :=
  match dictionary.lookup found with
  | some newValue => newValue
  | none => ""

/-! ## Character classes -/

/-- ASCII upper-case letter, `A-Z`. -/
def isUpperASCII (c : Char) : Bool := decide (65 ≤ c.toNat) && decide (c.toNat ≤ 90)

/-- ASCII lower-case letter, `a-z`. -/
def isLowerASCII (c : Char) : Bool := decide (97 ≤ c.toNat) && decide (c.toNat ≤ 122)

/-- ASCII digit, `0-9`. -/
def isDigitASCII (c : Char) : Bool := decide (48 ≤ c.toNat) && decide (c.toNat ≤ 57)

/-- The Perl class `\s` of Go's regexp syntax: tab, newline, form feed,
carriage return and space (`[\t\n\f\r ]`; the vertical tab is not in it). -/
def perlSpace (c : Char) : Bool :=
  c.toNat == 9 || c.toNat == 10 || c.toNat == 12 || c.toNat == 13 || c.toNat == 32

/-- The characters listed inside the brackets of `[^A-Za-z0-9\s-_]`: after the
class escape `\s` the hyphen is a literal hyphen, so the items are `A-Z`,
`a-z`, `0-9`, `\s`, `-` and `_`. -/
def allowedChar (c : Char) : Bool :=
  isUpperASCII c || isLowerASCII c || isDigitASCII c || perlSpace c
    || c.toNat == 45 || c.toNat == 95

/-- The negated class `[^A-Za-z0-9\s-_]`, the first regular expression of
`Slug`: any one code point that is not listed. -/
def invalidChar (c : Char) : Bool := !allowedChar c

/-- Go's `unicode.IsSpace`: in Latin-1 the characters tab, newline, vertical
tab, form feed, carriage return, space, U+0085 and U+00A0; beyond Latin-1 the
`White_Space` property (U+1680, U+2000..U+200A, U+2028, U+2029, U+202F,
U+205F, U+3000). -/
def isSpace (c : Char) : Bool :=
  let r := c.toNat
  if r ≤ 0xFF then
    r == 9 || r == 10 || r == 11 || r == 12 || r == 13 || r == 32 || r == 0x85 || r == 0xA0
  else
    r == 0x1680 || (decide (0x2000 ≤ r) && decide (r ≤ 0x200A)) || r == 0x2028 || r == 0x2029
      || r == 0x202F || r == 0x205F || r == 0x3000

/-! ## The standard-library calls -/

/-- `re.ReplaceAllStringFunc(src, repl)` for a regular expression that is one
character class `cls`: the matches are exactly the single characters in the
class, each replaced by `repl` of the matched one-character string; all other
characters are copied. -/
def replaceAllStringFunc (cls : Char → Bool) (repl : String → String) :
    List Char → List Char
  | [] => []
  | c :: cs =>
    (if cls c then (repl (String.singleton c)).data else [c])
      ++ replaceAllStringFunc cls repl cs

/-- `strings.TrimSpace`: the string without its leading and its trailing
`unicode.IsSpace` characters. -/
def trimSpace (s : List Char) : List Char :=
  ((s.dropWhile isSpace).reverse.dropWhile isSpace).reverse

/-- Worker of `replaceAllString`: `inRun` tells that the previous character
belonged to the match being consumed. -/
def replaceRuns (cls : Char → Bool) (repl : List Char) : Bool → List Char → List Char
  | _, [] => []
  | inRun, c :: cs =>
    if cls c then (if inRun then [] else repl) ++ replaceRuns cls repl true cs
    else c :: replaceRuns cls repl false cs

/-- `re.ReplaceAllString(src, repl)` for a regular expression `cls+` (one or
more characters of the class, greedy) and a replacement without `$`: every
maximal run of class characters is replaced by one copy of `repl`. -/
def replaceAllString (cls : Char → Bool) (repl : List Char) (src : List Char) : List Char :=
  replaceRuns cls repl false src

/-- `unicode.ToLower` on one code point: `A-Z` go to `a-z` (`c += 'a' - 'A'`),
the other ASCII characters are kept, and a non-ASCII code point is mapped by
`unicodeLower`. -/
def toLowerRune (unicodeLower : Char → Char) (c : Char) : Char :=
  if c.toNat < 128 then
    (if isUpperASCII c then Char.ofNat (c.toNat + 32) else c)
  else unicodeLower c

/-- `strings.ToLower`: every code point mapped to lower case. -/
def toLower (unicodeLower : Char → Char) (s : List Char) : List Char :=
  s.map (toLowerRune unicodeLower)

/-! ## The two entry points -/

/-- Creates a lower-case trimmed slug (`Slug`): invalid characters are
transliterated or removed, leading and trailing white space is trimmed, runs
of white space become `_`, and the result is lower-cased. -/
def Slug (unicodeLower : Char → Char) (original : String) : String :=
  -- Remove invalid characters
  let edited := replaceAllStringFunc invalidChar convertAccent original.data
  -- Trim leading and trailing white-space
  let edited := trimSpace edited
  -- Convert all white-spaces
  let edited := replaceAllString perlSpace "_".data edited
  -- All done!
  String.mk (toLower unicodeLower edited)

/-- Go's `len(s)` of a string: its number of bytes in UTF-8. -/
def len (s : String) : Nat := (s.data.map Char.utf8Size).sum

/-- The longest prefix of whole characters that fits in `n` bytes. -/
def byteTake : Nat → List Char → List Char
  | _, [] => []
  | n, c :: cs => if c.utf8Size ≤ n then c :: byteTake (n - c.utf8Size) cs else []

/-- The slice expression `s[0:hi]` on a string. Offsets count bytes; `none`
is the run-time panic for `hi < 0` or `hi > len(s)`. When `hi` is the end of
a character the result is the bytes before it; on a slug every character is
one byte, so that is always the case where `SlugWithMaxLength` slices. -/
def sliceTo (s : String) (hi : Int) : Option String :=
  if hi < 0 ∨ (len s : Int) < hi then none
  else some (String.mk (byteTake hi.toNat s.data))

/-- Two's-complement wrap-around of a 64-bit `int`. -/
def wrapInt (i : Int) : Int := (i + 2 ^ 63) % 2 ^ 64 - 2 ^ 63

/-- The values of a 64-bit `int`. -/
def isInt (i : Int) : Prop := -(2 ^ 63) ≤ i ∧ i < 2 ^ 63

/-- Same as `Slug`, but shortens the string if it is over the size limit
(`SlugWithMaxLength`). -/
def SlugWithMaxLength (unicodeLower : Char → Char) (original : String) (length : Int) :
    Option String :=
  -- Create the slug
  let edited := Slug unicodeLower original
  -- Cut to size
  if (len edited : Int) > length then
    sliceTo edited (wrapInt (length - 1))
  else
    -- All done!
    some edited

/-- The output alphabet of the spec: `a-z`, `0-9`, `-` and `_`. -/
def slugChar (c : Char) : Bool :=
  isLowerASCII c || isDigitASCII c || c.toNat == 45 || c.toNat == 95

/-- ASCII letter, digit, hyphen or underscore: the characters of a word. -/
def wordChar (c : Char) : Bool :=
  isUpperASCII c || isLowerASCII c || isDigitASCII c || c.toNat == 45 || c.toNat == 95

/-- ASCII lower-casing of a string: `A-Z` replaced by `a-z`, all else kept. -/
def lowerASCII (s : List Char) : List Char :=
  s.map (fun c => if isUpperASCII c then Char.ofNat (c.toNat + 32) else c)

/-- A word: a non-empty string of ASCII letters, digits, `-` and `_`. -/
def isWord (w : List Char) : Prop := w ≠ [] ∧ ∀ c ∈ w, wordChar c = true

/-- A run of white space: space, tab, newline, form feed, carriage return. -/
def isGap (g : List Char) : Prop := ∀ c ∈ g, perlSpace c = true

/-- The words `w`, `w₂`, ... joined by the runs given with them: the text
`w ++ gap₂ ++ w₂ ++ gap₃ ++ w₃ ...` for `rest = [(gap₂, w₂), (gap₃, w₃), ...]`. -/
def joinWords (w : List Char) : List (List Char × List Char) → List Char
  | [] => w
  | (gap, w2) :: rest => w ++ gap ++ joinWords w2 rest

/-- The slug the spec gives for such a text: the lower-cased words joined by
one underscore each, `lower(w) ++ "_" ++ lower(w₂) ++ "_" ++ ...`. -/
def joinSlug (w : List Char) : List (List Char × List Char) → List Char
  | [] => lowerASCII w
  | (_, w2) :: rest => lowerASCII w ++ '_' :: joinSlug w2 rest

/-! ## Byte strings

A Go `string` may hold any bytes. The definitions below are the first pass of
`Slug` on a byte string: the regular expression steps through the bytes with
`utf8.DecodeRuneInString`, which yields the code point `U+FFFD` and the width
1 at a byte that does not start a well-formed sequence. -/

/-- The Unicode simple lower-case mapping (UnicodeData.txt) on the code
points U+00C0..U+017F, the letters of the Latin-1 Supplement and the Latin
Extended-A block, from which every key of the table is taken. A code point
without a lower-case form is returned as it is; code points outside the range
are not covered by this definition and are returned as they are. -/
def latinLowerNat (r : Nat) : Nat :=
  if (0xC0 ≤ r ∧ r ≤ 0xD6) ∨ (0xD8 ≤ r ∧ r ≤ 0xDE) then r + 32
  else if r = 0x130 then 0x69
  else if r = 0x178 then 0xFF
  else if ((0x100 ≤ r ∧ r ≤ 0x12E) ∨ (0x132 ≤ r ∧ r ≤ 0x136) ∨ (0x14A ≤ r ∧ r ≤ 0x176))
      ∧ r % 2 = 0 then r + 1
  else if ((0x139 ≤ r ∧ r ≤ 0x147) ∨ (0x179 ≤ r ∧ r ≤ 0x17D)) ∧ r % 2 = 1 then r + 1
  else r

/-- The Unicode simple upper-case mapping on the same range: `ß` (U+00DF) has
no upper-case form, `ÿ` (U+00FF) has `Ÿ` (U+0178). -/
def latinUpperNat (r : Nat) : Nat :=
  if (0xE0 ≤ r ∧ r ≤ 0xF6) ∨ (0xF8 ≤ r ∧ r ≤ 0xFE) then r - 32
  else if r = 0xFF then 0x178
  else if r = 0x131 then 0x49
  else if r = 0x17F then 0x53
  else if ((0x101 ≤ r ∧ r ≤ 0x12F) ∨ (0x133 ≤ r ∧ r ≤ 0x137) ∨ (0x14B ≤ r ∧ r ≤ 0x177))
      ∧ r % 2 = 1 then r - 1
  else if ((0x13A ≤ r ∧ r ≤ 0x148) ∨ (0x17A ≤ r ∧ r ≤ 0x17E)) ∧ r % 2 = 0 then r - 1
  else r

/-- The lower-case form of a letter of U+00C0..U+017F. -/
def latinLower (c : Char) : Char := Char.ofNat (latinLowerNat c.toNat)

/-- The upper-case form of a letter of U+00C0..U+017F. -/
def latinUpper (c : Char) : Char := Char.ofNat (latinUpperNat c.toNat)

/-! ## Facts about characters -/

theorem toNat_ofNat_small (n : Nat) (h : n < 55296) : (Char.ofNat n).toNat = n := by
  have hv : n.isValidChar := Or.inl h
  simp [Char.ofNat, hv, Char.ofNatAux, Char.toNat, UInt32.toNat]

theorem utf8Size_ascii (c : Char) (h : c.toNat < 128) : c.utf8Size = 1 := by
  have h1 : c.val ≤ 127 := by
    show c.val.toNat ≤ 127
    have : c.toNat = c.val.toNat := rfl
    omega
  simp [Char.utf8Size, h1]

theorem slugChar_allowed {c : Char} (h : slugChar c = true) : allowedChar c = true := by
  simp only [slugChar, allowedChar, Bool.or_eq_true] at *
  tauto

theorem slugChar_not_perlSpace {c : Char} (h : slugChar c = true) : perlSpace c = false := by
  simp only [slugChar, perlSpace, isLowerASCII, isDigitASCII, Bool.or_eq_true, Bool.and_eq_true,
    decide_eq_true_eq, beq_iff_eq, Bool.or_eq_false_iff, beq_eq_false_iff_ne] at *
  omega

theorem slugChar_not_isSpace {c : Char} (h : slugChar c = true) : isSpace c = false := by
  simp only [slugChar, isSpace, isLowerASCII, isDigitASCII, Bool.or_eq_true, Bool.and_eq_true,
    decide_eq_true_eq, beq_iff_eq] at *
  split <;> simp only [Bool.or_eq_false_iff, beq_eq_false_iff_ne, Bool.and_eq_false_iff,
    decide_eq_false_iff_not] <;> omega

theorem slugChar_toLowerRune (u : Char → Char) {c : Char} (h : slugChar c = true) :
    toLowerRune u c = c := by
  simp only [slugChar, isLowerASCII, isDigitASCII, Bool.or_eq_true, Bool.and_eq_true,
    decide_eq_true_eq, beq_iff_eq] at h
  have h1 : c.toNat < 128 := by omega
  have h2 : isUpperASCII c = false := by
    simp only [isUpperASCII, Bool.and_eq_false_iff, decide_eq_false_iff_not]; omega
  simp [toLowerRune, h1, h2]

theorem allowed_toLowerRune (u : Char → Char) {c : Char} (h : allowedChar c = true)
    (hs : perlSpace c = false) : slugChar (toLowerRune u c) = true := by
  simp only [allowedChar, hs, isUpperASCII, isLowerASCII, isDigitASCII, Bool.or_eq_true,
    Bool.and_eq_true, decide_eq_true_eq, beq_iff_eq, Bool.or_false] at h
  have h1 : c.toNat < 128 := by omega
  by_cases hu : 65 ≤ c.toNat ∧ c.toNat ≤ 90
  · have h2 : isUpperASCII c = true := by
      simp only [isUpperASCII, Bool.and_eq_true, decide_eq_true_eq]; exact hu
    have h3 : (Char.ofNat (c.toNat + 32)).toNat = c.toNat + 32 :=
      toNat_ofNat_small _ (by omega)
    simp only [toLowerRune, h1, h2, if_true, slugChar, isLowerASCII, isDigitASCII, h3,
      Bool.or_eq_true, Bool.and_eq_true, decide_eq_true_eq, beq_iff_eq]
    omega
  · have h2 : isUpperASCII c = false := by
      simp only [isUpperASCII, Bool.and_eq_false_iff, decide_eq_false_iff_not]; omega
    simp only [toLowerRune, h1, h2, if_true, slugChar, isLowerASCII, isDigitASCII,
      Bool.or_eq_true, Bool.and_eq_true, decide_eq_true_eq, beq_iff_eq]
    simp only [Bool.false_eq_true, if_false]
    omega

theorem slugChar_ascii {c : Char} (h : slugChar c = true) : c.toNat < 128 := by
  simp only [slugChar, isLowerASCII, isDigitASCII, Bool.or_eq_true, Bool.and_eq_true,
    decide_eq_true_eq, beq_iff_eq] at h
  omega

theorem slugChar_not_upper {c : Char} (h : slugChar c = true) : isUpperASCII c = false := by
  simp only [slugChar, isLowerASCII, isDigitASCII, Bool.or_eq_true, Bool.and_eq_true,
    decide_eq_true_eq, beq_iff_eq] at h
  simp only [isUpperASCII, Bool.and_eq_false_iff, decide_eq_false_iff_not]; omega

/-! ## Facts about the table -/

/-- Every value of the table is made of ASCII letters only. -/
theorem dictionary_values :
    dictionary.all (fun kv => kv.2.data.all (fun c => isUpperASCII c || isLowerASCII c)) = true := by
  decide

/-- Every key of the table is one character, outside the allowed class, and
looking it up gives the value written next to it. -/
theorem dictionary_keys :
    dictionary.all (fun kv => kv.1.data.length == 1 && kv.1.data.all invalidChar
      && (dictionary.lookup kv.1 == some kv.2)) = true := by
  decide

theorem lookup_mem {k : String} {v : String} :
    ∀ {l : List (String × String)}, l.lookup k = some v → (k, v) ∈ l
  | [], h => by simp [List.lookup] at h
  | (a, b) :: l, h => by
    simp only [List.lookup] at h
    split at h
    · rename_i hk
      simp only [Option.some.injEq] at h
      have : k = a := eq_of_beq hk
      simp [h, this]
    · exact List.mem_cons_of_mem _ (lookup_mem h)

theorem convertAccent_letters (found : String) :
    ∀ c ∈ (convertAccent found).data, (isUpperASCII c || isLowerASCII c) = true := by
  intro c hc
  unfold convertAccent at hc
  split at hc
  · rename_i v hv
    have h := List.all_eq_true.mp dictionary_values _ (lookup_mem hv)
    exact List.all_eq_true.mp h c hc
  · simp at hc

theorem letter_allowed {c : Char} (h : (isUpperASCII c || isLowerASCII c) = true) :
    allowedChar c = true := by
  simp only [allowedChar, Bool.or_eq_true] at *
  tauto

/-! ## Facts about the passes of `Slug` -/

theorem replaceAllStringFunc_append (cls : Char → Bool) (repl : String → String)
    (a b : List Char) :
    replaceAllStringFunc cls repl (a ++ b)
      = replaceAllStringFunc cls repl a ++ replaceAllStringFunc cls repl b := by
  induction a with
  | nil => rfl
  | cons c cs ih => simp [replaceAllStringFunc, ih]

/-- After the first pass every character is in the allowed class. -/
theorem filtered_allowed (s : List Char) :
    ∀ c ∈ replaceAllStringFunc invalidChar convertAccent s, allowedChar c = true := by
  induction s with
  | nil => intro c hc; simp [replaceAllStringFunc] at hc
  | cons a as ih =>
    intro c hc
    simp only [replaceAllStringFunc, List.mem_append] at hc
    rcases hc with hc | hc
    · by_cases ha : invalidChar a = true
      · rw [if_pos ha] at hc
        exact letter_allowed (convertAccent_letters _ c hc)
      · rw [if_neg ha] at hc
        simp only [List.mem_singleton] at hc
        subst hc
        simpa [invalidChar] using ha
    · exact ih c hc

/-- The first pass leaves a string of allowed characters as it is. -/
theorem filtered_of_allowed (s : List Char) (h : ∀ c ∈ s, allowedChar c = true) :
    replaceAllStringFunc invalidChar convertAccent s = s := by
  induction s with
  | nil => rfl
  | cons a as ih =>
    have ha : invalidChar a = false := by simp [invalidChar, h a (List.mem_cons_self _ _)]
    simp [replaceAllStringFunc, ha, ih (fun c hc => h c (List.mem_cons_of_mem _ hc))]

theorem mem_trimSpace {s : List Char} {c : Char} (h : c ∈ trimSpace s) : c ∈ s := by
  unfold trimSpace at h
  rw [List.mem_reverse] at h
  have h1 := (List.dropWhile_sublist isSpace).subset h
  rw [List.mem_reverse] at h1
  exact (List.dropWhile_sublist isSpace).subset h1

theorem mem_replaceRuns (cls : Char → Bool) (repl : List Char) :
    ∀ (s : List Char) (b : Bool) (c : Char), c ∈ replaceRuns cls repl b s →
      (c ∈ s ∧ cls c = false) ∨ c ∈ repl := by
  intro s
  induction s with
  | nil => intro b c hc; simp [replaceRuns] at hc
  | cons a as ih =>
    intro b c hc
    simp only [replaceRuns] at hc
    by_cases ha : cls a = true
    · rw [if_pos ha, List.mem_append] at hc
      rcases hc with hc | hc
      · right
        cases b <;> simp_all
      · rcases ih _ _ hc with h | h
        · exact Or.inl ⟨List.mem_cons_of_mem _ h.1, h.2⟩
        · exact Or.inr h
    · rw [if_neg ha, List.mem_cons] at hc
      rcases hc with hc | hc
      · subst hc
        exact Or.inl ⟨List.mem_cons_self _ _, by simpa using ha⟩
      · rcases ih _ _ hc with h | h
        · exact Or.inl ⟨List.mem_cons_of_mem _ h.1, h.2⟩
        · exact Or.inr h

/-- Every character of a slug is in the output alphabet. -/
theorem slug_chars (u : Char → Char) (x : String) :
    ∀ c ∈ (Slug u x).data, slugChar c = true := by
  intro c hc
  simp only [Slug, toLower, List.mem_map] at hc
  obtain ⟨d, hd, rfl⟩ := hc
  rcases mem_replaceRuns _ _ _ _ _ hd with ⟨h1, h2⟩ | h
  · exact allowed_toLowerRune u (filtered_allowed _ _ (mem_trimSpace h1)) h2
  · have : d = '_' := by simpa using h
    subst this
    rfl

theorem trimSpace_of_no_space (s : List Char) (h : ∀ c ∈ s, isSpace c = false) :
    trimSpace s = s := by
  have h1 : ∀ (t : List Char), (∀ c ∈ t, isSpace c = false) → t.dropWhile isSpace = t := by
    intro t ht
    cases t with
    | nil => rfl
    | cons a as => simp [List.dropWhile, ht a (List.mem_cons_self _ _)]
  unfold trimSpace
  rw [h1 s h, h1 s.reverse (fun c hc => h c (List.mem_reverse.mp hc)), List.reverse_reverse]

theorem replaceRuns_of_no_match (cls : Char → Bool) (repl : List Char) (s : List Char)
    (h : ∀ c ∈ s, cls c = false) (b : Bool) : replaceRuns cls repl b s = s := by
  induction s generalizing b with
  | nil => rfl
  | cons a as ih =>
    simp [replaceRuns, h a (List.mem_cons_self _ _),
      ih (fun c hc => h c (List.mem_cons_of_mem _ hc))]

theorem toLower_of_slugChars (u : Char → Char) (s : List Char)
    (h : ∀ c ∈ s, slugChar c = true) : toLower u s = s := by
  unfold toLower
  conv_rhs => rw [← List.map_id s]
  apply List.map_congr_left
  intro c hc
  simpa using slugChar_toLowerRune u (h c hc)

/-- A string over the output alphabet is its own slug. -/
theorem slug_of_slugChars (u : Char → Char) (s : String)
    (h : ∀ c ∈ s.data, slugChar c = true) : Slug u s = s := by
  unfold Slug
  simp only
  rw [filtered_of_allowed _ (fun c hc => slugChar_allowed (h c hc)),
    trimSpace_of_no_space _ (fun c hc => slugChar_not_isSpace (h c hc))]
  unfold replaceAllString
  rw [replaceRuns_of_no_match _ _ _ (fun c hc => slugChar_not_perlSpace (h c hc)),
    toLower_of_slugChars u _ h]

theorem slugChar_cases {c : Char} (h : slugChar c = true) :
    ('a' ≤ c ∧ c ≤ 'z') ∨ ('0' ≤ c ∧ c ≤ '9') ∨ c = '-' ∨ c = '_' := by
  simp only [slugChar, isLowerASCII, isDigitASCII, Bool.or_eq_true, Bool.and_eq_true,
    decide_eq_true_eq, beq_iff_eq] at h
  rcases h with ((h | h) | h) | h
  · exact Or.inl h
  · exact Or.inr (Or.inl h)
  · right; right; left
    rw [← Char.ofNat_toNat c, h]
  · right; right; right
    rw [← Char.ofNat_toNat c, h]

/-- The slug depends on the input only through the result of the first pass. -/
theorem slug_congr (u : Char → Char) {a b : String}
    (h : replaceAllStringFunc invalidChar convertAccent a.data
      = replaceAllStringFunc invalidChar convertAccent b.data) : Slug u a = Slug u b := by
  unfold Slug
  simp only [h]

/-- The first pass replaces a key of the table by its value. -/
theorem filtered_key {k v : String} (h : dictionary.lookup k = some v) :
    replaceAllStringFunc invalidChar convertAccent k.data = v.data := by
  have hk := List.all_eq_true.mp dictionary_keys _ (lookup_mem h)
  simp only [Bool.and_eq_true, beq_iff_eq, List.all_eq_true] at hk
  obtain ⟨⟨h1, h2⟩, -⟩ := hk
  obtain ⟨c, hc⟩ := List.length_eq_one.mp h1
  have hs : String.singleton c = k := String.ext (by rw [hc]; rfl)
  have hi : invalidChar c = true := h2 c (by simp [hc])
  simp [hc, replaceAllStringFunc, hi, hs, convertAccent, h]

/-- The first pass keeps a value of the table as it is. -/
theorem filtered_value {k v : String} (h : dictionary.lookup k = some v) :
    replaceAllStringFunc invalidChar convertAccent v.data = v.data := by
  apply filtered_of_allowed
  intro c hc
  exact letter_allowed (List.all_eq_true.mp
    (List.all_eq_true.mp dictionary_values _ (lookup_mem h)) c hc)

theorem wordChar_allowed {c : Char} (h : wordChar c = true) : allowedChar c = true := by
  simp only [wordChar, allowedChar, Bool.or_eq_true] at *
  tauto

theorem wordChar_not_perlSpace {c : Char} (h : wordChar c = true) : perlSpace c = false := by
  simp only [wordChar, perlSpace, isUpperASCII, isLowerASCII, isDigitASCII, Bool.or_eq_true,
    Bool.and_eq_true, decide_eq_true_eq, beq_iff_eq, Bool.or_eq_false_iff,
    beq_eq_false_iff_ne] at *
  omega

theorem wordChar_not_isSpace {c : Char} (h : wordChar c = true) : isSpace c = false := by
  simp only [wordChar, isSpace, isUpperASCII, isLowerASCII, isDigitASCII, Bool.or_eq_true,
    Bool.and_eq_true, decide_eq_true_eq, beq_iff_eq] at *
  split <;> simp only [Bool.or_eq_false_iff, beq_eq_false_iff_ne, Bool.and_eq_false_iff,
    decide_eq_false_iff_not] <;> omega

theorem perlSpace_allowed {c : Char} (h : perlSpace c = true) : allowedChar c = true := by
  simp only [allowedChar, Bool.or_eq_true] at *
  tauto

theorem perlSpace_isSpace {c : Char} (h : perlSpace c = true) : isSpace c = true := by
  simp only [perlSpace, isSpace, Bool.or_eq_true, beq_iff_eq] at *
  have h1 : c.toNat ≤ 255 := by omega
  simp only [h1, if_true, Bool.or_eq_true, beq_iff_eq]
  omega

theorem toLower_of_wordChars (u : Char → Char) (w : List Char)
    (h : ∀ c ∈ w, allowedChar c = true) : toLower u w = lowerASCII w := by
  unfold toLower lowerASCII
  apply List.map_congr_left
  intro c hc
  have h1 : c.toNat < 128 := by
    have := h c hc
    simp only [allowedChar, perlSpace, isUpperASCII, isLowerASCII, isDigitASCII,
      Bool.or_eq_true, Bool.and_eq_true, decide_eq_true_eq, beq_iff_eq] at this
    omega
  simp [toLowerRune, h1]

theorem dropWhile_run (p : Char → Bool) (g : List Char) (c : Char) (t : List Char)
    (hg : ∀ a ∈ g, p a = true) (hc : p c = false) : (g ++ c :: t).dropWhile p = c :: t := by
  induction g with
  | nil => simp [List.dropWhile, hc]
  | cons a as ih =>
    simp [List.dropWhile, hg a (List.mem_cons_self _ _),
      ih (fun b hb => hg b (List.mem_cons_of_mem _ hb))]

/-- Trimming removes runs of white space around a text that starts and ends
with a character that is not white space. -/
theorem trimSpace_around (lead trail : List Char) (c d : Char) (t i : List Char)
    (hl : ∀ a ∈ lead, isSpace a = true) (ht : ∀ a ∈ trail, isSpace a = true)
    (hc : isSpace c = false) (hd : isSpace d = false) (hb : c :: t = i ++ [d]) :
    trimSpace (lead ++ (c :: t) ++ trail) = c :: t := by
  unfold trimSpace
  have h1 : (lead ++ (c :: t) ++ trail).dropWhile isSpace = c :: (t ++ trail) := by
    rw [List.append_assoc, List.cons_append]
    exact dropWhile_run isSpace lead c _ hl hc
  have h2 : (c :: (t ++ trail)).reverse = trail.reverse ++ d :: i.reverse := by
    rw [← List.cons_append, hb]
    simp
  rw [h1, h2, dropWhile_run isSpace trail.reverse d _
    (fun a ha => ht a (List.mem_reverse.mp ha)) hd, hb]
  simp

theorem replaceRuns_word (cls : Char → Bool) (repl : List Char) (w t : List Char)
    (hw : ∀ c ∈ w, cls c = false) (hne : w ≠ []) (b : Bool) :
    replaceRuns cls repl b (w ++ t) = w ++ replaceRuns cls repl false t := by
  induction w generalizing b with
  | nil => exact absurd rfl hne
  | cons a as ih =>
    have ha : cls a = false := hw a (List.mem_cons_self _ _)
    cases as with
    | nil => simp [replaceRuns, ha]
    | cons a2 as2 =>
      have := ih (fun c hc => hw c (List.mem_cons_of_mem _ hc)) (by simp) false
      simp only [List.cons_append] at this ⊢
      rw [replaceRuns, if_neg (by simp [ha]), this]

theorem replaceRuns_run_true (cls : Char → Bool) (repl : List Char) (g : List Char) (c : Char)
    (t : List Char) (hg : ∀ a ∈ g, cls a = true) (hc : cls c = false) :
    replaceRuns cls repl true (g ++ c :: t) = replaceRuns cls repl false (c :: t) := by
  induction g with
  | nil => simp [replaceRuns, hc]
  | cons a as ih =>
    simp [replaceRuns, hg a (List.mem_cons_self _ _),
      ih (fun b hb => hg b (List.mem_cons_of_mem _ hb)), hc]

theorem replaceRuns_run (cls : Char → Bool) (repl : List Char) (g : List Char) (c : Char)
    (t : List Char) (hg : ∀ a ∈ g, cls a = true) (hne : g ≠ []) (hc : cls c = false) :
    replaceRuns cls repl false (g ++ c :: t) = repl ++ replaceRuns cls repl false (c :: t) := by
  cases g with
  | nil => exact absurd rfl hne
  | cons a as =>
    have h := replaceRuns_run_true cls repl as c t
      (fun b hb => hg b (List.mem_cons_of_mem _ hb)) hc
    rw [List.cons_append, replaceRuns, if_pos (hg a (List.mem_cons_self _ _)), h]
    simp

theorem joinWords_head (w : List Char) (rest : List (List Char × List Char))
    (hw : isWord w) : ∃ c t, joinWords w rest = c :: t ∧ wordChar c = true := by
  obtain ⟨hne, hall⟩ := hw
  cases w with
  | nil => exact absurd rfl hne
  | cons c w1 =>
    have hc := hall c (List.mem_cons_self _ _)
    cases rest with
    | nil => exact ⟨c, w1, rfl, hc⟩
    | cons p rest1 => exact ⟨c, w1 ++ p.1 ++ joinWords p.2 rest1, by simp [joinWords], hc⟩

theorem joinWords_last (w : List Char) (rest : List (List Char × List Char))
    (hw : isWord w) (hr : ∀ p ∈ rest, isWord p.2) :
    ∃ i d, joinWords w rest = i ++ [d] ∧ wordChar d = true := by
  induction rest generalizing w with
  | nil =>
    obtain ⟨hne, hall⟩ := hw
    rcases List.eq_nil_or_concat w with h | ⟨i, d, h⟩
    · exact absurd h hne
    · exact ⟨i, d, by simp [joinWords, h], hall d (by simp [h])⟩
  | cons p rest1 ih =>
    obtain ⟨i, d, h, hd⟩ := ih p.2 (hr p (List.mem_cons_self _ _))
      (fun q hq => hr q (List.mem_cons_of_mem _ hq))
    exact ⟨w ++ p.1 ++ i, d, by simp [joinWords, h], hd⟩

theorem joinWords_allowed (w : List Char) (rest : List (List Char × List Char))
    (hw : isWord w) (hr : ∀ p ∈ rest, isGap p.1 ∧ isWord p.2) :
    ∀ c ∈ joinWords w rest, allowedChar c = true := by
  induction rest generalizing w with
  | nil => intro c hc; exact wordChar_allowed (hw.2 c hc)
  | cons p rest1 ih =>
    intro c hc
    have hp := hr p (List.mem_cons_self _ _)
    simp only [joinWords, List.mem_append] at hc
    rcases hc with (hc | hc) | hc
    · exact wordChar_allowed (hw.2 c hc)
    · exact perlSpace_allowed (hp.1 c hc)
    · exact ih p.2 hp.2 (fun q hq => hr q (List.mem_cons_of_mem _ hq)) c hc

/-- Collapsing and lower-casing a text of words joined by non-empty runs of
white space gives the lower-cased words joined by single underscores. -/
theorem collapse_joinWords (u : Char → Char) (w : List Char)
    (rest : List (List Char × List Char)) (hw : isWord w)
    (hr : ∀ p ∈ rest, (p.1 ≠ [] ∧ isGap p.1) ∧ isWord p.2) :
    toLower u (replaceRuns perlSpace ['_'] false (joinWords w rest)) = joinSlug w rest := by
  induction rest generalizing w with
  | nil =>
    simp only [joinWords, joinSlug]
    rw [replaceRuns_of_no_match _ _ _ (fun c hc => wordChar_not_perlSpace (hw.2 c hc))]
    exact toLower_of_wordChars u w (fun c hc => wordChar_allowed (hw.2 c hc))
  | cons p rest1 ih =>
    obtain ⟨⟨hg1, hg2⟩, hw2⟩ := hr p (List.mem_cons_self _ _)
    obtain ⟨c, t, hct, hc⟩ := joinWords_head p.2 rest1 hw2
    have hs := wordChar_not_perlSpace hc
    have e1 : replaceRuns perlSpace ['_'] false (joinWords w (p :: rest1))
        = w ++ '_' :: replaceRuns perlSpace ['_'] false (joinWords p.2 rest1) := by
      simp only [joinWords, List.append_assoc]
      rw [replaceRuns_word _ _ w _ (fun a ha => wordChar_not_perlSpace (hw.2 a ha)) hw.1,
        hct, replaceRuns_run _ _ p.1 c t hg2 hg1 hs]
      rfl
    rw [e1]
    have e2 : toLower u (w ++ '_' :: replaceRuns perlSpace ['_'] false (joinWords p.2 rest1))
        = toLower u w ++ '_' :: toLower u
            (replaceRuns perlSpace ['_'] false (joinWords p.2 rest1)) := by
      simp only [toLower, List.map_append, List.map_cons]
      rfl
    rw [e2, ih p.2 hw2 (fun q hq => hr q (List.mem_cons_of_mem _ hq)),
      toLower_of_wordChars u w (fun a ha => wordChar_allowed (hw.2 a ha))]
    rfl

/-! ## Lengths and slices of slugs -/

theorem sum_utf8Size_of_ascii (l : List Char) (h : ∀ c ∈ l, c.toNat < 128) :
    (l.map Char.utf8Size).sum = l.length := by
  induction l with
  | nil => rfl
  | cons a as ih =>
    simp only [List.map_cons, List.sum_cons, List.length_cons,
      utf8Size_ascii a (h a (List.mem_cons_self _ _)),
      ih (fun c hc => h c (List.mem_cons_of_mem _ hc))]
    omega

theorem byteTake_of_ascii (l : List Char) (h : ∀ c ∈ l, c.toNat < 128) (n : Nat) :
    byteTake n l = l.take n := by
  induction l generalizing n with
  | nil => simp [byteTake]
  | cons a as ih =>
    have ha := utf8Size_ascii a (h a (List.mem_cons_self _ _))
    cases n with
    | zero => simp [byteTake, ha]
    | succ k =>
      simp [byteTake, ha, ih (fun c hc => h c (List.mem_cons_of_mem _ hc))]

/-- A slug has as many bytes as characters. -/
theorem len_slug (u : Char → Char) (x : String) : len (Slug u x) = (Slug u x).length := by
  unfold len
  exact sum_utf8Size_of_ascii _ (fun c hc => slugChar_ascii (slug_chars u x c hc))

theorem wrapInt_of_isInt (i : Int) (h : isInt i) : wrapInt i = i := by
  unfold isInt at h
  unfold wrapInt
  omega

/-- The truncation branch: an over-long slug is cut to its first
`length - 1` characters. -/
theorem slugWithMaxLength_cut (u : Char → Char) (x : String) (m : Int) (hm : 1 ≤ m)
    (hi : isInt m) (hlen : m < ((Slug u x).length : Int)) :
    SlugWithMaxLength u x m = some (String.mk ((Slug u x).data.take (m - 1).toNat)) := by
  have hw : wrapInt (m - 1) = m - 1 := wrapInt_of_isInt _ (by unfold isInt at *; omega)
  have hl := len_slug u x
  unfold SlugWithMaxLength
  simp only [hl, gt_iff_lt, hlen, if_true, hw, sliceTo]
  rw [if_neg (by omega),
    byteTake_of_ascii _ (fun c hc => slugChar_ascii (slug_chars u x c hc))]

/-- The other branch: a slug within the limit is returned as it is. -/
theorem slugWithMaxLength_keep (u : Char → Char) (x : String) (m : Int)
    (hlen : ((Slug u x).length : Int) ≤ m) : SlugWithMaxLength u x m = some (Slug u x) := by
  unfold SlugWithMaxLength
  simp only [len_slug u x, gt_iff_lt]
  rw [if_neg (by omega)]

/-- A limit below one: the call returns (the empty slug) only for the limit
zero and an empty slug, and panics in every other case. -/
theorem slugWithMaxLength_nonpositive (u : Char → Char) (x : String) (m : Int)
    (hi : isInt m) (hm : m ≤ 0) (hsz : ((Slug u x).length : Int) < 2 ^ 63 - 1) :
    SlugWithMaxLength u x m
      = if m = 0 ∧ (Slug u x).length = 0 then some (Slug u x) else none := by
  have hl := len_slug u x
  unfold isInt at hi
  unfold SlugWithMaxLength
  simp only [hl, gt_iff_lt]
  by_cases h0 : m = 0 ∧ (Slug u x).length = 0
  · rw [if_neg (by omega), if_pos h0]
  · rw [if_pos (by omega), if_neg h0]
    unfold sliceTo wrapInt
    rw [if_pos]
    simp only [hl]
    omega

/-! ## Degenerate and pass-through inputs -/

/-- No key of the table is a white-space character. -/
theorem dictionary_keys_not_space :
    dictionary.all (fun kv => kv.1.data.all (fun c => !isSpace c)) = true := by
  decide

theorem convertAccent_space {c : Char} (h : isSpace c = true) :
    convertAccent (String.singleton c) = "" := by
  unfold convertAccent
  split
  · rename_i v hv
    have h1 := List.all_eq_true.mp dictionary_keys_not_space _ (lookup_mem hv)
    have h2 := List.all_eq_true.mp h1 c (by show c ∈ [c]; simp)
    simp [h] at h2
  · rfl

/-- The first pass leaves only white space of a text made of white space and
of characters that are neither allowed nor keys. -/
theorem filtered_degenerate (s : List Char)
    (h : ∀ c ∈ s, isSpace c = true
      ∨ (allowedChar c = false ∧ dictionary.lookup (String.singleton c) = none)) :
    ∀ c ∈ replaceAllStringFunc invalidChar convertAccent s, isSpace c = true := by
  induction s with
  | nil => intro c hc; simp [replaceAllStringFunc] at hc
  | cons a as ih =>
    intro c hc
    simp only [replaceAllStringFunc, List.mem_append] at hc
    rcases hc with hc | hc
    · by_cases ha : invalidChar a = true
      · rw [if_pos ha] at hc
        rcases h a (List.mem_cons_self _ _) with h1 | ⟨-, h2⟩
        · rw [convertAccent_space h1] at hc
          simp at hc
        · simp [convertAccent, h2] at hc
      · rw [if_neg ha] at hc
        simp only [List.mem_singleton] at hc
        subst hc
        rcases h c (List.mem_cons_self _ _) with h1 | ⟨h2, -⟩
        · exact h1
        · simp [invalidChar, h2] at ha
    · exact ih (fun b hb => h b (List.mem_cons_of_mem _ hb)) c hc

theorem trimSpace_of_all_space (s : List Char) (h : ∀ c ∈ s, isSpace c = true) :
    trimSpace s = [] := by
  have h1 : s.dropWhile isSpace = [] := List.dropWhile_eq_nil_iff.mpr h
  simp [trimSpace, h1]

/-- The slug of a text of word characters is the text in lower case. -/
theorem slug_of_wordChars (u : Char → Char) (x : String)
    (h : ∀ c ∈ x.data, wordChar c = true) : Slug u x = String.mk (lowerASCII x.data) := by
  unfold Slug
  simp only
  rw [filtered_of_allowed _ (fun c hc => wordChar_allowed (h c hc)),
    trimSpace_of_no_space _ (fun c hc => wordChar_not_isSpace (h c hc))]
  unfold replaceAllString
  rw [replaceRuns_of_no_match _ _ _ (fun c hc => wordChar_not_perlSpace (h c hc)),
    toLower_of_wordChars u _ (fun c hc => wordChar_allowed (h c hc))]

/-! ## Two words and one separator -/

/-- The slug of words joined by non-empty runs of white space, with runs of
white space around them. -/
theorem slug_joinWords (u : Char → Char) (lead trail w : List Char)
    (rest : List (List Char × List Char))
    (hl : isGap lead) (ht : isGap trail) (hw : isWord w)
    (hr : ∀ p ∈ rest, (p.1 ≠ [] ∧ isGap p.1) ∧ isWord p.2) :
    Slug u (String.mk (lead ++ joinWords w rest ++ trail)) = String.mk (joinSlug w rest) := by
  have hall : ∀ c ∈ lead ++ joinWords w rest ++ trail, allowedChar c = true := by
    intro c hc
    simp only [List.mem_append] at hc
    rcases hc with (hc | hc) | hc
    · exact perlSpace_allowed (hl c hc)
    · exact joinWords_allowed w rest hw (fun p hp => ⟨(hr p hp).1.2, (hr p hp).2⟩) c hc
    · exact perlSpace_allowed (ht c hc)
  obtain ⟨c, t, hct, hc⟩ := joinWords_head w rest hw
  obtain ⟨i, d, hid, hd⟩ := joinWords_last w rest hw (fun p hp => (hr p hp).2)
  have htrim : trimSpace (lead ++ joinWords w rest ++ trail) = joinWords w rest := by
    rw [hct]
    exact trimSpace_around lead trail c d t i (fun a ha => perlSpace_isSpace (hl a ha))
      (fun a ha => perlSpace_isSpace (ht a ha)) (wordChar_not_isSpace hc)
      (wordChar_not_isSpace hd) (by rw [← hct, hid])
  unfold Slug
  simp only
  rw [filtered_of_allowed _ hall, htrim]
  unfold replaceAllString
  exact congrArg String.mk (collapse_joinWords u w rest hw hr)

theorem lower_wordChar {c : Char} (h : isLowerASCII c = true) : wordChar c = true := by
  simp [wordChar, h]

theorem lower_not_upper {c : Char} (h : isLowerASCII c = true) : isUpperASCII c = false := by
  simp only [isLowerASCII, Bool.and_eq_true, decide_eq_true_eq] at h
  simp only [isUpperASCII, Bool.and_eq_false_iff, decide_eq_false_iff_not]
  omega

theorem lowerASCII_of_lower (a : List Char) (h : ∀ c ∈ a, isLowerASCII c = true) :
    lowerASCII a = a := by
  unfold lowerASCII
  conv_rhs => rw [← List.map_id a]
  apply List.map_congr_left
  intro c hc
  simp [lower_not_upper (h c hc)]

/-- Two lower-case words with one `\s` character between them: the separator
written by the code is the underscore. -/
theorem slug_two_words (u : Char → Char) (a b : List Char) (w : Char)
    (ha : a ≠ [] ∧ ∀ c ∈ a, isLowerASCII c = true)
    (hb : b ≠ [] ∧ ∀ c ∈ b, isLowerASCII c = true) (hw : perlSpace w = true) :
    Slug u (String.mk (a ++ w :: b)) = String.mk (a ++ '_' :: b) := by
  have h := slug_joinWords u [] [] a [([w], b)] (by simp [isGap]) (by simp [isGap])
    ⟨ha.1, fun c hc => lower_wordChar (ha.2 c hc)⟩
    (by
      intro p hp
      simp only [List.mem_singleton] at hp
      subst hp
      exact ⟨⟨by simp, by simp [isGap, hw]⟩, hb.1, fun c hc => lower_wordChar (hb.2 c hc)⟩)
  simp only [joinWords, joinSlug, List.nil_append, List.append_nil, List.append_assoc,
    List.singleton_append, lowerASCII_of_lower a ha.2, lowerASCII_of_lower b hb.2] at h
  exact h

theorem unicode_only_space_invalid {w : Char} (hs : isSpace w = true)
    (hp : perlSpace w = false) : allowedChar w = false := by
  simp only [perlSpace, Bool.or_eq_false_iff, beq_eq_false_iff_ne] at hp
  simp only [allowedChar, perlSpace, isUpperASCII, isLowerASCII, isDigitASCII,
    Bool.or_eq_false_iff, Bool.and_eq_false_iff, decide_eq_false_iff_not, beq_eq_false_iff_ne]
  unfold isSpace at hs
  simp only at hs
  split at hs <;>
    simp only [Bool.or_eq_true, Bool.and_eq_true, decide_eq_true_eq, beq_iff_eq] at hs <;>
    omega

/-! ## ASCII case of the input -/

theorem toNat_lowered {c : Char} (h : isUpperASCII c = true) :
    (Char.ofNat (c.toNat + 32)).toNat = c.toNat + 32 := by
  simp only [isUpperASCII, Bool.and_eq_true, decide_eq_true_eq] at h
  exact toNat_ofNat_small _ (by omega)

theorem upper_allowed {c : Char} (h : isUpperASCII c = true) : allowedChar c = true := by
  simp [allowedChar, h]

theorem lowered_is_lower {c : Char} (h : isUpperASCII c = true) :
    isLowerASCII (Char.ofNat (c.toNat + 32)) = true := by
  have h1 := toNat_lowered h
  simp only [isUpperASCII, Bool.and_eq_true, decide_eq_true_eq] at h
  simp only [isLowerASCII, h1, Bool.and_eq_true, decide_eq_true_eq]
  omega

theorem isSpace_lowered (c : Char) :
    isSpace (if isUpperASCII c then Char.ofNat (c.toNat + 32) else c) = isSpace c := by
  by_cases h : isUpperASCII c = true
  · rw [if_pos h, wordChar_not_isSpace (lower_wordChar (lowered_is_lower h)),
      wordChar_not_isSpace (by simp [wordChar, h])]
  · rw [if_neg h]

theorem perlSpace_lowered (c : Char) :
    perlSpace (if isUpperASCII c then Char.ofNat (c.toNat + 32) else c) = perlSpace c := by
  by_cases h : isUpperASCII c = true
  · rw [if_pos h, wordChar_not_perlSpace (lower_wordChar (lowered_is_lower h)),
      wordChar_not_perlSpace (by simp [wordChar, h])]
  · rw [if_neg h]

theorem lowerASCII_append (a b : List Char) :
    lowerASCII (a ++ b) = lowerASCII a ++ lowerASCII b := by
  simp [lowerASCII]

theorem lowerASCII_idem (a : List Char) : lowerASCII (lowerASCII a) = lowerASCII a := by
  unfold lowerASCII
  rw [List.map_map]
  apply List.map_congr_left
  intro c _
  by_cases h : isUpperASCII c = true
  · simp [h, lower_not_upper (lowered_is_lower h)]
  · simp [h]

/-- Lower-casing the ASCII letters of the input changes the result of the
first pass in the case of ASCII letters only. -/
theorem lowerASCII_filtered (s : List Char) :
    lowerASCII (replaceAllStringFunc invalidChar convertAccent (lowerASCII s))
      = lowerASCII (replaceAllStringFunc invalidChar convertAccent s) := by
  induction s with
  | nil => rfl
  | cons a as ih =>
    have ih1 : lowerASCII (replaceAllStringFunc invalidChar convertAccent
        (List.map (fun c => if isUpperASCII c then Char.ofNat (c.toNat + 32) else c) as))
        = lowerASCII (replaceAllStringFunc invalidChar convertAccent as) := ih
    by_cases h : isUpperASCII a = true
    · have h1 : invalidChar a = false := by simp [invalidChar, upper_allowed h]
      have h2 : invalidChar (Char.ofNat (a.toNat + 32)) = false := by
        simp [invalidChar, wordChar_allowed (lower_wordChar (lowered_is_lower h))]
      simp only [lowerASCII, List.map_cons, h, if_true, replaceAllStringFunc, h1, h2,
        Bool.false_eq_true, if_false, List.singleton_append]
      simp only [lowerASCII] at ih1
      rw [ih1]
      simp [h, lower_not_upper (lowered_is_lower h)]
    · simp only [lowerASCII, List.map_cons, h, Bool.false_eq_true, if_false,
        replaceAllStringFunc, List.map_append]
      simp only [lowerASCII] at ih1
      rw [ih1]

theorem dropWhile_lowerASCII (s : List Char) :
    (lowerASCII s).dropWhile isSpace = lowerASCII (s.dropWhile isSpace) := by
  induction s with
  | nil => rfl
  | cons a as ih =>
    have ih1 : (List.map (fun c => if isUpperASCII c then Char.ofNat (c.toNat + 32) else c)
        as).dropWhile isSpace = lowerASCII (as.dropWhile isSpace) := ih
    simp only [lowerASCII, List.map_cons, List.dropWhile_cons, isSpace_lowered]
    by_cases h : isSpace a = true
    · simp only [h, if_true]
      exact ih1
    · simp only [h, Bool.false_eq_true, if_false, List.map_cons]

theorem trimSpace_lowerASCII (s : List Char) :
    trimSpace (lowerASCII s) = lowerASCII (trimSpace s) := by
  have hr : ∀ t : List Char, (lowerASCII t).reverse = lowerASCII t.reverse := by
    intro t; simp [lowerASCII]
  unfold trimSpace
  rw [dropWhile_lowerASCII, hr, dropWhile_lowerASCII, hr]

theorem replaceRuns_lowerASCII (s : List Char) (b : Bool) :
    replaceRuns perlSpace ['_'] b (lowerASCII s)
      = lowerASCII (replaceRuns perlSpace ['_'] b s) := by
  induction s generalizing b with
  | nil => rfl
  | cons a as ih =>
    have ih1 : ∀ b, replaceRuns perlSpace ['_'] b
        (List.map (fun c => if isUpperASCII c then Char.ofNat (c.toNat + 32) else c) as)
        = lowerASCII (replaceRuns perlSpace ['_'] b as) := ih
    simp only [lowerASCII, List.map_cons, replaceRuns, perlSpace_lowered]
    by_cases h : perlSpace a = true
    · simp only [h, if_true, ih1, List.map_append]
      cases b
      · simp only [Bool.false_eq_true, if_false, lowerASCII, List.map_cons, List.map_nil]
        rfl
      · simp [lowerASCII]
    · simp only [h, Bool.false_eq_true, if_false, ih1, List.map_cons, lowerASCII]

/-- The slug is the trimmed and collapsed lower-casing of the result of the
first pass: lower-casing last or right after the first pass is the same. -/
theorem slug_lower_first (u : Char → Char) (x : String) :
    Slug u x = String.mk (replaceRuns perlSpace ['_'] false (trimSpace
      (lowerASCII (replaceAllStringFunc invalidChar convertAccent x.data)))) := by
  unfold Slug replaceAllString
  simp only
  rw [trimSpace_lowerASCII, replaceRuns_lowerASCII]
  apply congrArg String.mk
  apply toLower_of_wordChars
  intro c hc
  rcases mem_replaceRuns _ _ _ _ _ hc with ⟨h1, -⟩ | h
  · exact filtered_allowed _ _ (mem_trimSpace h1)
  · have : c = '_' := by simpa using h
    subst this
    rfl

/-! ## Composition of two texts -/

theorem dropWhile_head_not (p : Char → Bool) :
    ∀ (l : List Char) (a : Char) (t : List Char), l.dropWhile p = a :: t → p a = false
  | [], a, t, h => by simp at h
  | b :: l, a, t, h => by
    by_cases hb : p b = true
    · rw [List.dropWhile_cons_of_pos hb] at h
      exact dropWhile_head_not p l a t h
    · rw [List.dropWhile_cons_of_neg hb] at h
      simp only [List.cons.injEq] at h
      rw [← h.1]
      simpa using hb

theorem mem_takeWhile_true (p : Char → Bool) :
    ∀ (l : List Char) (a : Char), a ∈ l.takeWhile p → p a = true
  | [], a, h => by simp at h
  | b :: l, a, h => by
    by_cases hb : p b = true
    · rw [List.takeWhile_cons_of_pos hb, List.mem_cons] at h
      rcases h with h | h
      · rw [h]; exact hb
      · exact mem_takeWhile_true p l a h
    · rw [List.takeWhile_cons_of_neg hb] at h
      simp at h

/-- A text whose trimming is not empty is a run of white space, then a text
that starts and ends with a character that is not white space, then a run of
white space. -/
theorem trimSpace_decompose (X : List Char) (h : trimSpace X ≠ []) :
    ∃ lead trail c d t i, X = lead ++ (c :: t) ++ trail ∧ c :: t = i ++ [d]
      ∧ (∀ a ∈ lead, isSpace a = true) ∧ (∀ a ∈ trail, isSpace a = true)
      ∧ isSpace c = false ∧ isSpace d = false := by
  unfold trimSpace at h
  have hX := List.takeWhile_append_dropWhile isSpace X
  have hD := List.takeWhile_append_dropWhile isSpace (X.dropWhile isSpace).reverse
  generalize hR : ((X.dropWhile isSpace).reverse.dropWhile isSpace) = R at h hD
  cases R with
  | nil => simp at h
  | cons d r =>
    have hd := dropWhile_head_not isSpace _ d r hR
    have hD2 : X.dropWhile isSpace
        = (r.reverse ++ [d]) ++ ((X.dropWhile isSpace).reverse.takeWhile isSpace).reverse := by
      have := congrArg List.reverse hD
      simp only [List.reverse_append, List.reverse_cons, List.reverse_reverse] at this
      exact this.symm
    have htrail : ∀ a ∈ ((X.dropWhile isSpace).reverse.takeWhile isSpace).reverse,
        isSpace a = true :=
      fun a ha => mem_takeWhile_true isSpace _ a (List.mem_reverse.mp ha)
    have hlead : ∀ a ∈ X.takeWhile isSpace, isSpace a = true :=
      fun a ha => mem_takeWhile_true isSpace _ a ha
    cases hr : r.reverse with
    | nil =>
      rw [hr] at hD2
      have hc := dropWhile_head_not isSpace X d _ hD2
      have e : X = X.takeWhile isSpace ++ X.dropWhile isSpace := hX.symm
      rw [hD2] at e
      exact ⟨_, _, d, d, [], [], by simpa using e, rfl, hlead, htrail, hc, hd⟩
    | cons c t =>
      rw [hr] at hD2
      have hc := dropWhile_head_not isSpace X c _ hD2
      have e : X = X.takeWhile isSpace ++ X.dropWhile isSpace := hX.symm
      rw [hD2] at e
      exact ⟨_, _, c, d, t ++ [d], c :: t, by simpa using e, rfl, hlead, htrail, hc, hd⟩

theorem replaceRuns_snoc_append (cls : Char → Bool) (repl : List Char) (i : List Char)
    (d : Char) (T : List Char) (hd : cls d = false) (b : Bool) :
    replaceRuns cls repl b (i ++ d :: T)
      = replaceRuns cls repl b (i ++ [d]) ++ replaceRuns cls repl false T := by
  induction i generalizing b with
  | nil => simp [replaceRuns, hd]
  | cons a as ih =>
    by_cases ha : cls a = true
    · rw [List.cons_append, List.cons_append, replaceRuns, replaceRuns, if_pos ha, if_pos ha,
        ih true, List.append_assoc]
    · rw [List.cons_append, List.cons_append, replaceRuns, replaceRuns, if_neg ha, if_neg ha,
        ih false, List.cons_append]

theorem allowed_space_perl {c : Char} (ha : allowedChar c = true) (hs : isSpace c = true) :
    perlSpace c = true := by
  by_contra hp
  have := unicode_only_space_invalid hs (by simpa using hp)
  rw [ha] at this
  exact absurd this (by decide)

theorem not_space_not_perl {c : Char} (hs : isSpace c = false) : perlSpace c = false := by
  by_contra hp
  have := perlSpace_isSpace (c := c) (by simpa using hp)
  rw [hs] at this
  exact absurd this (by decide)

theorem slug_ne_empty_trim (u : Char → Char) (x : String) (h : Slug u x ≠ "") :
    trimSpace (replaceAllStringFunc invalidChar convertAccent x.data) ≠ [] := by
  intro he
  apply h
  unfold Slug
  simp only [he]
  rfl

/-- The slug of two texts with a space between them, when neither slug is
empty: the two slugs joined by one underscore. -/
theorem slug_append_space (u : Char → Char) (x y : String)
    (hx : Slug u x ≠ "") (hy : Slug u y ≠ "") :
    (Slug u (x ++ " " ++ y)).data = (Slug u x).data ++ '_' :: (Slug u y).data := by
  obtain ⟨l1, r1, c1, d1, t1, i1, eX, e1, hl1, hr1, hc1, hd1⟩ :=
    trimSpace_decompose _ (slug_ne_empty_trim u x hx)
  obtain ⟨l2, r2, c2, d2, t2, i2, eY, e2, hl2, hr2, hc2, hd2⟩ :=
    trimSpace_decompose _ (slug_ne_empty_trim u y hy)
  have aX := filtered_allowed x.data
  have aY := filtered_allowed y.data
  have tX : trimSpace (replaceAllStringFunc invalidChar convertAccent x.data) = c1 :: t1 := by
    rw [eX]; exact trimSpace_around l1 r1 c1 d1 t1 i1 hl1 hr1 hc1 hd1 e1
  have tY : trimSpace (replaceAllStringFunc invalidChar convertAccent y.data) = c2 :: t2 := by
    rw [eY]; exact trimSpace_around l2 r2 c2 d2 t2 i2 hl2 hr2 hc2 hd2 e2
  have hsp : replaceAllStringFunc invalidChar convertAccent " ".data = [' '] := rfl
  have eW : replaceAllStringFunc invalidChar convertAccent (x ++ " " ++ y).data
      = l1 ++ (c1 :: (t1 ++ (r1 ++ ' ' :: l2) ++ c2 :: t2)) ++ r2 := by
    simp only [String.data_append, replaceAllStringFunc_append, hsp, eX, eY]
    simp
  have eB : c1 :: (t1 ++ (r1 ++ ' ' :: l2) ++ c2 :: t2)
      = (i1 ++ [d1] ++ (r1 ++ ' ' :: l2) ++ i2) ++ [d2] := by
    rw [← List.cons_append, ← List.cons_append, e1, List.append_assoc _ _ (c2 :: t2), e2]
    simp
  have tW : trimSpace (replaceAllStringFunc invalidChar convertAccent (x ++ " " ++ y).data)
      = c1 :: (t1 ++ (r1 ++ ' ' :: l2) ++ c2 :: t2) := by
    rw [eW]; exact trimSpace_around l1 r2 c1 d2 _ _ hl1 hr2 hc1 hd2 eB
  have hG : ∀ a ∈ r1 ++ ' ' :: l2, perlSpace a = true := by
    intro a ha
    simp only [List.mem_append, List.mem_cons] at ha
    rcases ha with ha | ha | ha
    · exact allowed_space_perl (aX a (by rw [eX]; simp [ha])) (hr1 a ha)
    · rw [ha]; rfl
    · exact allowed_space_perl (aY a (by rw [eY]; simp [ha])) (hl2 a ha)
  have eR : replaceRuns perlSpace ['_'] false (c1 :: (t1 ++ (r1 ++ ' ' :: l2) ++ c2 :: t2))
      = replaceRuns perlSpace ['_'] false (c1 :: t1)
        ++ '_' :: replaceRuns perlSpace ['_'] false (c2 :: t2) := by
    have e3 : c1 :: (t1 ++ (r1 ++ ' ' :: l2) ++ c2 :: t2)
        = i1 ++ d1 :: ((r1 ++ ' ' :: l2) ++ c2 :: t2) := by
      rw [← List.cons_append, ← List.cons_append, e1]
      simp
    rw [e3, replaceRuns_snoc_append _ _ _ _ _ (not_space_not_perl hd1), ← e1,
      replaceRuns_run _ _ _ c2 t2 hG (by simp) (not_space_not_perl hc2)]
    rfl
  have sX : (Slug u x).data = toLower u (replaceRuns perlSpace ['_'] false (c1 :: t1)) := by
    unfold Slug replaceAllString
    simp only [tX]
  have sY : (Slug u y).data = toLower u (replaceRuns perlSpace ['_'] false (c2 :: t2)) := by
    unfold Slug replaceAllString
    simp only [tY]
  have sW : (Slug u (x ++ " " ++ y)).data = toLower u (replaceRuns perlSpace ['_'] false
      (c1 :: (t1 ++ (r1 ++ ' ' :: l2) ++ c2 :: t2))) := by
    unfold Slug replaceAllString
    simp only [tW]
  rw [sW, eR, sX, sY]
  simp only [toLower, List.map_append, List.map_cons]
  rfl

/-! ## Well-formed and ill-formed input -/

/-- C1 (output alphabet closure): for every input string, every character of
the slug is one of `a-z`, `0-9`, `-` or `_`; so the slug has no upper-case
letter, no white space (neither of the regular expression's class nor of
Unicode) and no non-ASCII character, and lower-casing it leaves it unchanged. -/
theorem slug_output_alphabet (u : Char → Char) (x : String) :
    (∀ c ∈ (Slug u x).data,
        ('a' ≤ c ∧ c ≤ 'z') ∨ ('0' ≤ c ∧ c ≤ '9') ∨ c = '-' ∨ c = '_')
    ∧ (∀ c ∈ (Slug u x).data,
        isUpperASCII c = false ∧ perlSpace c = false ∧ isSpace c = false ∧ c.toNat < 128)
    ∧ toLower u (Slug u x).data = (Slug u x).data := by
  refine ⟨fun c hc => slugChar_cases (slug_chars u x c hc), fun c hc => ?_,
    toLower_of_slugChars u _ (slug_chars u x)⟩
  have h := slug_chars u x c hc
  exact ⟨slugChar_not_upper h, slugChar_not_perlSpace h, slugChar_not_isSpace h,
    slugChar_ascii h⟩

/-- C2 (idempotence): for every input string `x`, the slug of the slug of `x`
is the slug of `x`. -/
theorem slug_idempotent (u : Char → Char) (x : String) :
    Slug u (Slug u x) = Slug u x :=
  slug_of_slugChars u (Slug u x) (slug_chars u x)

/-- C3: the code at the input of the claim. The table has no entry for `ü`
(it has `Ü`, `ù`, `ú` and `û`), so `ü` is removed rather than transliterated:
the slug of `Café Münster` is `cafe_mnster`, not `cafe_munster`. -/
theorem slug_cafe_munster (u : Char → Char) :
    Slug u "Café Münster" = "cafe_mnster"
    ∧ Slug u "Café Münster" ≠ "cafe_munster"
    ∧ dictionary.lookup "ü" = none
    ∧ dictionary.lookup "Ü" = some "U"
    ∧ dictionary.lookup "é" = some "e" := by
  refine ⟨rfl, ?_, by decide, by decide, by decide⟩
  have h : Slug u "Café Münster" = "cafe_mnster" := rfl
  rw [h]
  decide

/-- C4 (transliteration by table): for every key `k` of the table with value
`v` and all strings `x`, `y`, the slug of `x ++ k ++ y` is the slug of
`x ++ v ++ y`; and the slug of `Đorđe Šumić` is `djordje_sumic`. -/
theorem slug_transliterates (u : Char → Char) (k v x y : String)
    (h : dictionary.lookup k = some v) :
    Slug u (x ++ k ++ y) = Slug u (x ++ v ++ y)
    ∧ Slug u "Đorđe Šumić" = "djordje_sumic" := by
  refine ⟨slug_congr u ?_, rfl⟩
  simp only [String.data_append, replaceAllStringFunc_append, filtered_key h, filtered_value h]

/-- The hypothesis of `slug_transliterates` at the key `ß` between `Stra` and `e 7`. -/
theorem slug_transliterates_witness :
    dictionary.lookup "ß" = some "Ss"
    ∧ Slug id ("Stra" ++ "ß" ++ "e 7") = Slug id ("Stra" ++ "Ss" ++ "e 7")
    ∧ Slug id ("Stra" ++ "ß" ++ "e 7") = "strasse_7" :=
  ⟨by decide, (slug_transliterates id "ß" "Ss" "Stra" "e 7" (by decide)).1, by decide⟩

/-- C6 (trim and white-space collapse): for words `w`, `w₂`, ..., each a
non-empty string of ASCII letters, digits, `-` and `_`, joined by non-empty
runs of white space (space, tab, newline, form feed, carriage return) and
surrounded by possibly empty runs `lead` and `trail`, the slug is
`lower(w) ++ "_" ++ lower(w₂) ++ ...`: one underscore for each interior run,
none for the leading or trailing one. The slug of `"  Hello   World  "` is
`hello_world`. -/
theorem slug_trims_and_collapses (u : Char → Char) (lead trail w : List Char)
    (rest : List (List Char × List Char))
    (hl : isGap lead) (ht : isGap trail) (hw : isWord w)
    (hr : ∀ p ∈ rest, (p.1 ≠ [] ∧ isGap p.1) ∧ isWord p.2) :
    Slug u (String.mk (lead ++ joinWords w rest ++ trail)) = String.mk (joinSlug w rest)
    ∧ Slug u "  Hello   World  " = "hello_world" := by
  refine ⟨?_, rfl⟩
  have hr2 : ∀ p ∈ rest, isWord p.2 := fun p hp => (hr p hp).2
  have hall : ∀ c ∈ lead ++ joinWords w rest ++ trail, allowedChar c = true := by
    intro c hc
    simp only [List.mem_append] at hc
    rcases hc with (hc | hc) | hc
    · exact perlSpace_allowed (hl c hc)
    · exact joinWords_allowed w rest hw (fun p hp => ⟨(hr p hp).1.2, (hr p hp).2⟩) c hc
    · exact perlSpace_allowed (ht c hc)
  obtain ⟨c, t, hct, hc⟩ := joinWords_head w rest hw
  obtain ⟨i, d, hid, hd⟩ := joinWords_last w rest hw hr2
  have htrim : trimSpace (lead ++ joinWords w rest ++ trail) = joinWords w rest := by
    rw [hct]
    exact trimSpace_around lead trail c d t i (fun a ha => perlSpace_isSpace (hl a ha))
      (fun a ha => perlSpace_isSpace (ht a ha)) (wordChar_not_isSpace hc)
      (wordChar_not_isSpace hd) (by rw [← hct, hid])
  unfold Slug
  simp only
  rw [filtered_of_allowed _ hall, htrim]
  unfold replaceAllString
  exact congrArg String.mk (collapse_joinWords u w rest hw hr)

/-- The hypotheses of `slug_trims_and_collapses` at a text of three words. -/
theorem slug_trims_and_collapses_witness :
    isGap " \t".data ∧ isGap "\n".data ∧ isWord "Hello-2".data
    ∧ (∀ p ∈ [("  \r ".data, "big_World".data), (" ".data, "X".data)],
        (p.1 ≠ [] ∧ isGap p.1) ∧ isWord p.2)
    ∧ Slug id (String.mk (" \t".data
          ++ joinWords "Hello-2".data [("  \r ".data, "big_World".data), (" ".data, "X".data)]
          ++ "\n".data))
        = String.mk (joinSlug "Hello-2".data
            [("  \r ".data, "big_World".data), (" ".data, "X".data)])
    ∧ String.mk (joinSlug "Hello-2".data
            [("  \r ".data, "big_World".data), (" ".data, "X".data)]) = "hello-2_big_world_x" :=
  have hl : isGap " \t".data := by unfold isGap; decide
  have ht : isGap "\n".data := by unfold isGap; decide
  have hw : isWord "Hello-2".data := by unfold isWord; decide
  have hr : ∀ p ∈ [("  \r ".data, "big_World".data), (" ".data, "X".data)],
      (p.1 ≠ [] ∧ isGap p.1) ∧ isWord p.2 := by unfold isGap isWord; decide
  ⟨hl, ht, hw, hr, (slug_trims_and_collapses id _ _ _ _ hl ht hw hr).1, by decide⟩

/-- C7 (length bound): for every input string and every `maxLen ≥ 1` (an
`int`), `SlugWithMaxLength` returns a string, and its length, in bytes and in
characters, is at most `maxLen`. -/
theorem slugWithMaxLength_bound (u : Char → Char) (x : String) (maxLen : Int)
    (hm : 1 ≤ maxLen) (hi : isInt maxLen) :
    ∃ r, SlugWithMaxLength u x maxLen = some r
      ∧ (len r : Int) ≤ maxLen ∧ (r.length : Int) ≤ maxLen := by
  by_cases hlen : maxLen < ((Slug u x).length : Int)
  · refine ⟨_, slugWithMaxLength_cut u x maxLen hm hi hlen, ?_, ?_⟩
    · have h : len (String.mk ((Slug u x).data.take (maxLen - 1).toNat))
          = ((Slug u x).data.take (maxLen - 1).toNat).length :=
        sum_utf8Size_of_ascii _
          (fun c hc => slugChar_ascii (slug_chars u x c (List.mem_of_mem_take hc)))
      rw [h, List.length_take]
      omega
    · show ((((Slug u x).data.take (maxLen - 1).toNat).length : Nat) : Int) ≤ maxLen
      rw [List.length_take]
      omega
  · refine ⟨_, slugWithMaxLength_keep u x maxLen (by omega), ?_, by omega⟩
    rw [len_slug]
    omega

/-- The hypotheses of `slugWithMaxLength_bound` at the limit 5. -/
theorem slugWithMaxLength_bound_witness :
    (1 : Int) ≤ 5 ∧ isInt 5
    ∧ ∃ r, SlugWithMaxLength id "Hello World" 5 = some r
        ∧ (len r : Int) ≤ 5 ∧ (r.length : Int) ≤ 5 :=
  ⟨by decide, by unfold isInt; decide,
    slugWithMaxLength_bound id "Hello World" 5 (by decide) (by unfold isInt; decide)⟩

/-- C8 (off-by-one truncation): for every input string and every `maxLen ≥ 1`
(an `int`) smaller than the length of the slug, `SlugWithMaxLength` returns
exactly the first `maxLen - 1` characters of the slug, a string of length
`maxLen - 1`; and `SlugWithMaxLength("abcdefgh", 5)` is `abcd`. -/
theorem slugWithMaxLength_off_by_one (u : Char → Char) (x : String) (maxLen : Int)
    (hm : 1 ≤ maxLen) (hi : isInt maxLen) (hlen : maxLen < ((Slug u x).length : Int)) :
    SlugWithMaxLength u x maxLen
        = some (String.mk ((Slug u x).data.take (maxLen - 1).toNat))
    ∧ ((String.mk ((Slug u x).data.take (maxLen - 1).toNat)).length : Int) = maxLen - 1
    ∧ SlugWithMaxLength u "abcdefgh" 5 = some "abcd" := by
  refine ⟨slugWithMaxLength_cut u x maxLen hm hi hlen, ?_, rfl⟩
  show ((((Slug u x).data.take (maxLen - 1).toNat).length : Nat) : Int) = maxLen - 1
  rw [List.length_take]
  have : (Slug u x).data.length = (Slug u x).length := rfl
  omega

/-- The hypotheses of `slugWithMaxLength_off_by_one` at `abcdefgh` and the limit 5. -/
theorem slugWithMaxLength_off_by_one_witness :
    (1 : Int) ≤ 5 ∧ isInt 5 ∧ (5 : Int) < ((Slug id "abcdefgh").length : Int)
    ∧ SlugWithMaxLength id "abcdefgh" 5
        = some (String.mk ((Slug id "abcdefgh").data.take ((5 : Int) - 1).toNat))
    ∧ String.mk ((Slug id "abcdefgh").data.take ((5 : Int) - 1).toNat) = "abcd" :=
  ⟨by decide, by unfold isInt; decide, by decide,
    (slugWithMaxLength_off_by_one id "abcdefgh" 5 (by decide) (by unfold isInt; decide)
      (by decide)).1, by decide⟩

/-- C9 (no truncation when it fits): for every input string and every
non-negative `maxLen` that is at least the length of the slug,
`SlugWithMaxLength` returns the slug unchanged. -/
theorem slugWithMaxLength_fits (u : Char → Char) (x : String) (maxLen : Int)
    (_hm : 0 ≤ maxLen) (hlen : ((Slug u x).length : Int) ≤ maxLen) :
    SlugWithMaxLength u x maxLen = some (Slug u x) :=
  slugWithMaxLength_keep u x maxLen hlen

/-- The hypotheses of `slugWithMaxLength_fits` at the limit 11. -/
theorem slugWithMaxLength_fits_witness :
    (0 : Int) ≤ 11 ∧ ((Slug id "Hello World").length : Int) ≤ 11
    ∧ SlugWithMaxLength id "Hello World" 11 = some "hello_world" :=
  ⟨by decide, by decide, slugWithMaxLength_fits id "Hello World" 11 (by decide) (by decide)⟩

/-- C10: the code at limits that are zero or negative. With a non-empty slug
and `maxLen = 0` the slice `edited[0:(length - 1)]` has the upper bound `-1`
and the call panics; so it does for a negative limit, whatever the slug. The
empty string is returned only for `maxLen = 0` and an empty slug. -/
theorem slugWithMaxLength_zero_faults (u : Char → Char) :
    SlugWithMaxLength u "a" 0 = none
    ∧ SlugWithMaxLength u "Hello World" 0 = none
    ∧ SlugWithMaxLength u "" (-1) = none
    ∧ SlugWithMaxLength u "" 0 = some "" :=
  ⟨rfl, rfl, rfl, rfl⟩

/-- C11 (no failure in normal operation): `Slug` returns a string for every
input string, and for every input string and every `maxLen ≥ 1` (an `int`)
`SlugWithMaxLength` returns a string without a panic: whenever the truncation
branch runs, the upper bound of the slice is `maxLen - 1` (no wrap-around)
and satisfies `0 ≤ maxLen - 1 ≤ len(Slug(x))`. -/
theorem slugWithMaxLength_never_faults (u : Char → Char) (x : String) (maxLen : Int)
    (hm : 1 ≤ maxLen) (hi : isInt maxLen) :
    (∃ s, Slug u x = s)
    ∧ (∃ r, SlugWithMaxLength u x maxLen = some r)
    ∧ ((len (Slug u x) : Int) > maxLen →
        wrapInt (maxLen - 1) = maxLen - 1 ∧ 0 ≤ maxLen - 1
        ∧ maxLen - 1 ≤ (len (Slug u x) : Int)
        ∧ sliceTo (Slug u x) (wrapInt (maxLen - 1)) ≠ none) := by
  have hw : wrapInt (maxLen - 1) = maxLen - 1 :=
    wrapInt_of_isInt _ (by unfold isInt at *; omega)
  refine ⟨⟨_, rfl⟩, ?_, fun hlen => ⟨hw, by omega, by omega, ?_⟩⟩
  · by_cases hlen : maxLen < ((Slug u x).length : Int)
    · exact ⟨_, slugWithMaxLength_cut u x maxLen hm hi hlen⟩
    · exact ⟨_, slugWithMaxLength_keep u x maxLen (by omega)⟩
  · rw [hw]
    unfold sliceTo
    rw [if_neg (by omega)]
    simp

/-- The hypotheses of `slugWithMaxLength_never_faults` at the limit 1, where
the truncation branch runs and cuts to the empty string. -/
theorem slugWithMaxLength_never_faults_witness :
    (1 : Int) ≤ 1 ∧ isInt 1 ∧ SlugWithMaxLength id "Hello World" 1 = some ""
    ∧ ∃ r, SlugWithMaxLength id "Hello World" 1 = some r :=
  ⟨by decide, by unfold isInt; decide, by decide,
    (slugWithMaxLength_never_faults id "Hello World" 1 (by decide)
      (by unfold isInt; decide)).2.1⟩

/-- C12 (pass-through of the allowed alphabet): for every input string made of
ASCII letters, ASCII digits, `-` and `_` only, the slug is the input with its
ASCII upper-case letters lower-cased: it has the same length, and at every
position the character of the input, lower-cased if it is in `A-Z`. -/
theorem slug_passes_allowed (u : Char → Char) (x : String)
    (h : ∀ c ∈ x.data, wordChar c = true) :
    Slug u x = String.mk (lowerASCII x.data)
    ∧ (Slug u x).length = x.length
    ∧ (Slug u x).data
        = x.data.map (fun c => if isUpperASCII c then Char.ofNat (c.toNat + 32) else c) := by
  have h1 := slug_of_wordChars u x h
  refine ⟨h1, ?_, ?_⟩
  · rw [h1]
    show (lowerASCII x.data).length = x.data.length
    simp [lowerASCII]
  · rw [h1]
    rfl

/-- The hypothesis of `slug_passes_allowed` at `My_File-Name2`. -/
theorem slug_passes_allowed_witness :
    (∀ c ∈ "My_File-Name2".data, wordChar c = true)
    ∧ Slug id "My_File-Name2" = String.mk (lowerASCII "My_File-Name2".data)
    ∧ Slug id "My_File-Name2" = "my_file-name2" :=
  have h : ∀ c ∈ "My_File-Name2".data, wordChar c = true := by decide
  ⟨h, (slug_passes_allowed id "My_File-Name2" h).1, by decide⟩

/-- C13 (degenerate input): for every input string made up only of white
space (of Unicode, which includes the class `\s`) and of characters that are
neither allowed nor keys of the table, the slug is the empty string, hence
empty or made of underscores only; and the slug of the empty string is
empty. -/
theorem slug_degenerate (u : Char → Char) (x : String)
    (h : ∀ c ∈ x.data, isSpace c = true
      ∨ (allowedChar c = false ∧ dictionary.lookup (String.singleton c) = none)) :
    (Slug u x = "" ∨ ∀ c ∈ (Slug u x).data, c = '_')
    ∧ Slug u x = ""
    ∧ Slug u "" = "" := by
  have h1 : Slug u x = "" := by
    unfold Slug
    simp only
    rw [trimSpace_of_all_space _ (filtered_degenerate _ h)]
    rfl
  exact ⟨Or.inl h1, h1, rfl⟩

/-- The hypothesis of `slug_degenerate` at a text of blanks, a tab and
punctuation. -/
theorem slug_degenerate_witness :
    (∀ c ∈ " !? \t% ".data, isSpace c = true
      ∨ (allowedChar c = false ∧ dictionary.lookup (String.singleton c) = none))
    ∧ Slug id " !? \t% " = "" :=
  have h : ∀ c ∈ " !? \t% ".data, isSpace c = true
      ∨ (allowedChar c = false ∧ dictionary.lookup (String.singleton c) = none) := by
    decide
  ⟨h, (slug_degenerate id " !? \t% " h).2.1⟩

/-- C14: the separator the code writes. The doc comment of `Slug` promises
dashes for white space; for non-empty words `a`, `b` of ASCII lower-case
letters and a white-space character `w` (space, tab, newline, form feed,
carriage return) the code returns `a ++ "_" ++ b`, which is not
`a ++ "-" ++ b`; the slug of `a b` is `a_b`. -/
theorem slug_separator_is_underscore (u : Char → Char) (a b : List Char) (w : Char)
    (ha : a ≠ [] ∧ ∀ c ∈ a, isLowerASCII c = true)
    (hb : b ≠ [] ∧ ∀ c ∈ b, isLowerASCII c = true) (hw : perlSpace w = true) :
    Slug u (String.mk (a ++ w :: b)) = String.mk (a ++ '_' :: b)
    ∧ Slug u (String.mk (a ++ w :: b)) ≠ String.mk (a ++ '-' :: b)
    ∧ Slug u "a b" = "a_b" := by
  have h := slug_two_words u a b w ha hb hw
  refine ⟨h, ?_, rfl⟩
  rw [h]
  intro he
  have h1 : a ++ '_' :: b = a ++ '-' :: b := congrArg String.data he
  have h2 := List.append_cancel_left h1
  simp at h2

/-- The hypotheses of `slug_separator_is_underscore` at `new`, a tab, `post`. -/
theorem slug_separator_is_underscore_witness :
    ("new".data ≠ [] ∧ ∀ c ∈ "new".data, isLowerASCII c = true)
    ∧ ("post".data ≠ [] ∧ ∀ c ∈ "post".data, isLowerASCII c = true)
    ∧ perlSpace '\t' = true
    ∧ Slug id "new\tpost" = "new_post" ∧ Slug id "new\tpost" ≠ "new-post" :=
  have ha : "new".data ≠ [] ∧ ∀ c ∈ "new".data, isLowerASCII c = true := by decide
  have hb : "post".data ≠ [] ∧ ∀ c ∈ "post".data, isLowerASCII c = true := by decide
  ⟨ha, hb, by decide,
    (slug_separator_is_underscore id "new".data "post".data '\t' ha hb (by decide)).1,
    (slug_separator_is_underscore id "new".data "post".data '\t' ha hb (by decide)).2.1⟩

/-- C15, the claim as stated fails: the vertical tab U+000B is white space
for `unicode.IsSpace` but is not in the class `\s`; between `a` and `b` it is
removed by the first pass, and the slug is `ab`, not `a_b`. The same holds for
U+0085 and U+00A0. -/
theorem slug_vertical_tab_dropped :
    isSpace (Char.ofNat 11) = true ∧ allowedChar (Char.ofNat 11) = false
    ∧ (∀ u, Slug u "a\x0bb" = "ab")
    ∧ Slug id "a\x0bb" ≠ "a_b"
    ∧ isSpace (Char.ofNat 0x85) = true ∧ (∀ u, Slug u "a\u0085b" = "ab")
    ∧ isSpace (Char.ofNat 0xA0) = true ∧ (∀ u, Slug u "a\u00a0b" = "ab") :=
  ⟨by decide, by decide, fun _ => rfl, by decide, by decide, fun _ => rfl, by decide,
    fun _ => rfl⟩

/-- C15 (amended): for every Unicode white-space character `w` and all ASCII
lower-case letters `a`, `b`: if `w` is in the class `\s` (space, tab, newline,
form feed, carriage return) it passes the first pass unchanged and is then
collapsed, so the slug of `a ++ w ++ b` is `a ++ "_" ++ b`; every other
white-space character is outside the allowed set, is removed by the first
pass, and the slug is `a ++ b`. -/
theorem slug_white_space_between (u : Char → Char) (a b w : Char)
    (ha : isLowerASCII a = true) (hb : isLowerASCII b = true) (hw : isSpace w = true) :
    (perlSpace w = true →
      replaceAllStringFunc invalidChar convertAccent [w] = [w]
      ∧ Slug u (String.mk [a, w, b]) = String.mk [a, '_', b])
    ∧ (perlSpace w = false →
      replaceAllStringFunc invalidChar convertAccent [w] = []
      ∧ Slug u (String.mk [a, w, b]) = String.mk [a, b]) := by
  constructor
  · intro hp
    refine ⟨filtered_of_allowed [w] (by simpa using perlSpace_allowed hp), ?_⟩
    exact slug_two_words u [a] [b] w ⟨by simp, by simpa using ha⟩ ⟨by simp, by simpa using hb⟩ hp
  · intro hp
    have hinv : invalidChar w = true := by simp [invalidChar, unicode_only_space_invalid hw hp]
    have hf : replaceAllStringFunc invalidChar convertAccent [w] = [] := by
      simp [replaceAllStringFunc, hinv, convertAccent_space hw]
    refine ⟨hf, ?_⟩
    have h1 : Slug u (String.mk [a, w, b]) = Slug u (String.mk [a, b]) := by
      apply slug_congr
      have e1 : [a, w, b] = [a] ++ [w] ++ [b] := rfl
      have e2 : [a, b] = [a] ++ [b] := rfl
      show replaceAllStringFunc invalidChar convertAccent [a, w, b]
        = replaceAllStringFunc invalidChar convertAccent [a, b]
      rw [e1, e2]
      simp only [replaceAllStringFunc_append, hf, List.append_nil]
    rw [h1, slug_of_wordChars u _ (by
      intro c hc
      have : c = a ∨ c = b := by simpa using hc
      rcases this with rfl | rfl
      · exact lower_wordChar ha
      · exact lower_wordChar hb)]
    exact congrArg String.mk (lowerASCII_of_lower [a, b] (by
      intro c hc
      have : c = a ∨ c = b := by simpa using hc
      rcases this with rfl | rfl
      · exact ha
      · exact hb))

/-- The hypotheses of `slug_white_space_between` at the no-break space
U+00A0, which is removed, and what it gives for the newline. -/
theorem slug_white_space_between_witness :
    isLowerASCII 'x' = true ∧ isLowerASCII 'y' = true ∧ isSpace (Char.ofNat 0xA0) = true
    ∧ perlSpace (Char.ofNat 0xA0) = false
    ∧ Slug id (String.mk ['x', Char.ofNat 0xA0, 'y']) = String.mk ['x', 'y']
    ∧ Slug id (String.mk ['x', '\n', 'y']) = String.mk ['x', '_', 'y'] :=
  ⟨by decide, by decide, by decide, by decide,
    ((slug_white_space_between id 'x' 'y' (Char.ofNat 0xA0) (by decide) (by decide)
      (by decide)).2 (by decide)).2,
    ((slug_white_space_between id 'x' 'y' '\n' (by decide) (by decide)
      (by decide)).1 (by decide)).2⟩

/-- C16, the claim as stated fails at four keys: `Ü` is a key and its
lower-case form `ü` is not; `ð` is a key and its upper-case form `Ð`
(U+00D0) is not; `ÿ` is a key and its upper-case form `Ÿ` (U+0178) is
not; `ß` is a key and has no other-case form (nor is U+1E9E a key). -/
theorem dictionary_case_pairs_missing :
    (dictionary.lookup "Ü" = some "U" ∧ latinLower 'Ü' = 'ü'
      ∧ dictionary.lookup "ü" = none)
    ∧ (dictionary.lookup "ð" = some "o" ∧ latinUpper 'ð' = 'Ð'
      ∧ dictionary.lookup "Ð" = none)
    ∧ (dictionary.lookup "ÿ" = some "y" ∧ latinUpper 'ÿ' = 'Ÿ'
      ∧ dictionary.lookup "Ÿ" = none)
    ∧ (dictionary.lookup "ß" = some "Ss" ∧ latinUpper 'ß' = 'ß'
      ∧ latinLower 'ß' = 'ß' ∧ dictionary.lookup "ẞ" = none) := by
  decide

/-- C16 (amended): for every entry of the table whose key `c` is not `Ü`,
`ð`, `ß` or `ÿ`, the other-case form of `c` is a different character
and is a key too, and the lower-case key maps to the ASCII lower-casing of
the upper-case key's value: either `c` is upper case and its lower-case form
is a key with value `lower(v)`, or `c` is lower case and its upper-case form
is a key whose value lower-cased is `v`. `ß` has no other-case form, and
the upper-case form of `ÿ` lies outside Latin-1 and is not a key. -/
theorem dictionary_case_pairs (c : Char) (v : String)
    (h : (String.singleton c, v) ∈ dictionary)
    (hne : c ≠ 'Ü' ∧ c ≠ 'ð' ∧ c ≠ 'ß' ∧ c ≠ 'ÿ') :
    ((latinLower c ≠ c ∧ latinUpper c = c
        ∧ dictionary.lookup (String.singleton (latinLower c))
            = some (String.mk (lowerASCII v.data)))
      ∨ (latinUpper c ≠ c ∧ latinLower c = c
        ∧ (dictionary.lookup (String.singleton (latinUpper c))).map
            (fun V => String.mk (lowerASCII V.data)) = some v))
    ∧ (latinUpper 'ß' = 'ß' ∧ latinLower 'ß' = 'ß')
    ∧ (latinUpper 'ÿ' = 'Ÿ' ∧ dictionary.lookup "Ÿ" = none) := by
  have key : ∀ kv ∈ dictionary,
      (kv.1.data.headD 'a' ≠ 'Ü' ∧ kv.1.data.headD 'a' ≠ 'ð'
        ∧ kv.1.data.headD 'a' ≠ 'ß' ∧ kv.1.data.headD 'a' ≠ 'ÿ') →
      ((latinLower (kv.1.data.headD 'a') ≠ kv.1.data.headD 'a'
          ∧ latinUpper (kv.1.data.headD 'a') = kv.1.data.headD 'a'
          ∧ dictionary.lookup (String.singleton (latinLower (kv.1.data.headD 'a')))
              = some (String.mk (lowerASCII kv.2.data)))
        ∨ (latinUpper (kv.1.data.headD 'a') ≠ kv.1.data.headD 'a'
          ∧ latinLower (kv.1.data.headD 'a') = kv.1.data.headD 'a'
          ∧ (dictionary.lookup (String.singleton (latinUpper (kv.1.data.headD 'a')))).map
              (fun V => String.mk (lowerASCII V.data)) = some kv.2)) := by
    decide
  exact ⟨key _ h hne, by decide, by decide⟩

/-- The hypotheses of `dictionary_case_pairs` at the key `Đ` with value `Dj`,
whose lower-case form `đ` has the value `dj`. -/
theorem dictionary_case_pairs_witness :
    (String.singleton 'Đ', "Dj") ∈ dictionary
    ∧ ('Đ' ≠ 'Ü' ∧ 'Đ' ≠ 'ð' ∧ 'Đ' ≠ 'ß' ∧ 'Đ' ≠ 'ÿ')
    ∧ latinLower 'Đ' = 'đ' ∧ dictionary.lookup "đ" = some "dj"
    ∧ ((latinLower 'Đ' ≠ 'Đ' ∧ latinUpper 'Đ' = 'Đ'
        ∧ dictionary.lookup (String.singleton (latinLower 'Đ'))
            = some (String.mk (lowerASCII "Dj".data)))
      ∨ (latinUpper 'Đ' ≠ 'Đ' ∧ latinLower 'Đ' = 'Đ'
        ∧ (dictionary.lookup (String.singleton (latinUpper 'Đ'))).map
            (fun V => String.mk (lowerASCII V.data)) = some "Dj")) :=
  ⟨by decide, by decide, by decide, by decide,
    (dictionary_case_pairs 'Đ' "Dj" (by decide) (by decide)).1⟩

/-- C17 (table well-formedness): every key of the table is exactly one code
point, no key maps to itself, and every value is a non-empty string of ASCII
letters only; moreover no key is written twice. -/
theorem dictionary_well_formed (k v : String) (h : (k, v) ∈ dictionary) :
    (k.length = 1 ∧ v ≠ k ∧ v ≠ ""
      ∧ ∀ c ∈ v.data, isUpperASCII c = true ∨ isLowerASCII c = true)
    ∧ (dictionary.map Prod.fst).Nodup := by
  have key : ∀ kv ∈ dictionary, kv.1.length = 1 ∧ kv.2 ≠ kv.1 ∧ kv.2 ≠ ""
      ∧ ∀ c ∈ kv.2.data, isUpperASCII c = true ∨ isLowerASCII c = true := by
    decide
  exact ⟨key _ h, by decide⟩

/-- The hypothesis of `dictionary_well_formed` at the entry `ß ↦ Ss`. -/
theorem dictionary_well_formed_witness :
    ("ß", "Ss") ∈ dictionary ∧ "ß".length = 1 ∧ "Ss" ≠ "ß" ∧ "Ss" ≠ ""
    ∧ ∀ c ∈ "Ss".data, isUpperASCII c = true ∨ isLowerASCII c = true :=
  ⟨by decide, (dictionary_well_formed "ß" "Ss" (by decide)).1⟩

/-- C19 (monotone prefixes): for every input string and all limits
`1 ≤ m ≤ n` (values of `int`), both calls return, the result for `m` is a
prefix of the result for `n`, and both are prefixes of the slug. -/
theorem slugWithMaxLength_monotone (u : Char → Char) (x : String) (m n : Int)
    (hm : 1 ≤ m) (hmn : m ≤ n) (hn : isInt n) :
    ∃ a b, SlugWithMaxLength u x m = some a ∧ SlugWithMaxLength u x n = some b
      ∧ a.data <+: b.data ∧ b.data <+: (Slug u x).data ∧ a.data <+: (Slug u x).data := by
  have him : isInt m := by unfold isInt at *; omega
  have hn1 : 1 ≤ n := by omega
  by_cases h1 : m < ((Slug u x).length : Int)
  · by_cases h2 : n < ((Slug u x).length : Int)
    · refine ⟨_, _, slugWithMaxLength_cut u x m hm him h1,
        slugWithMaxLength_cut u x n hn1 hn h2, ?_, ⟨_, List.take_append_drop _ _⟩,
        ⟨_, List.take_append_drop _ _⟩⟩
      refine ⟨List.drop (m - 1).toNat (List.take (n - 1).toNat (Slug u x).data), ?_⟩
      have : List.take (m - 1).toNat (Slug u x).data
          = List.take (m - 1).toNat (List.take (n - 1).toNat (Slug u x).data) := by
        rw [List.take_take, Nat.min_eq_left (by omega)]
      show List.take (m - 1).toNat (Slug u x).data ++ _ = _
      rw [this]
      exact List.take_append_drop _ _
    · exact ⟨_, _, slugWithMaxLength_cut u x m hm him h1,
        slugWithMaxLength_keep u x n (by omega), ⟨_, List.take_append_drop _ _⟩,
        ⟨[], List.append_nil _⟩, ⟨_, List.take_append_drop _ _⟩⟩
  · exact ⟨_, _, slugWithMaxLength_keep u x m (by omega),
      slugWithMaxLength_keep u x n (by omega), ⟨[], List.append_nil _⟩,
      ⟨[], List.append_nil _⟩, ⟨[], List.append_nil _⟩⟩

/-- The hypotheses of `slugWithMaxLength_monotone` at the limits 3 and 8 for
`Hello World`, with the two results `he` and `hello_w`. -/
theorem slugWithMaxLength_monotone_witness :
    (1 : Int) ≤ 3 ∧ (3 : Int) ≤ 8 ∧ isInt 8
    ∧ SlugWithMaxLength id "Hello World" 3 = some "he"
    ∧ SlugWithMaxLength id "Hello World" 8 = some "hello_w"
    ∧ ∃ a b, SlugWithMaxLength id "Hello World" 3 = some a
        ∧ SlugWithMaxLength id "Hello World" 8 = some b
        ∧ a.data <+: b.data ∧ b.data <+: (Slug id "Hello World").data
        ∧ a.data <+: (Slug id "Hello World").data :=
  ⟨by decide, by decide, by unfold isInt; decide, by decide, by decide,
    slugWithMaxLength_monotone id "Hello World" 3 8 (by decide) (by decide)
      (by unfold isInt; decide)⟩

/-- C20 (ASCII case-insensitivity): for every input string `x`, the slug of
`x` with every letter `A-Z` replaced by its lower-case letter, all other
characters kept, is the slug of `x`. -/
theorem slug_case_insensitive (u : Char → Char) (x : String) :
    Slug u (String.mk (lowerASCII x.data)) = Slug u x := by
  rw [slug_lower_first u x, slug_lower_first u (String.mk (lowerASCII x.data))]
  show String.mk (replaceRuns perlSpace ['_'] false (trimSpace (lowerASCII
    (replaceAllStringFunc invalidChar convertAccent (lowerASCII x.data))))) = _
  rw [lowerASCII_filtered]

/-- C18 (word-wise composition): for all input strings `x` and `y` whose
slugs are not empty, the slug of `x ++ " " ++ y` is the slug of `x`, one
underscore, and the slug of `y`; white space or dropped characters at the end
of `x` or at the start of `y` give no second underscore. -/
theorem slug_composes (u : Char → Char) (x y : String)
    (hx : Slug u x ≠ "") (hy : Slug u y ≠ "") :
    Slug u (x ++ " " ++ y) = Slug u x ++ "_" ++ Slug u y := by
  apply String.ext
  rw [slug_append_space u x y hx hy]
  simp only [String.data_append]
  simp

/-- The hypotheses of `slug_composes` at two texts with white space and
dropped characters where they meet. -/
theorem slug_composes_witness :
    Slug id "Hello! \t" ≠ "" ∧ Slug id " (World)" ≠ ""
    ∧ Slug id ("Hello! \t" ++ " " ++ " (World)") = Slug id "Hello! \t" ++ "_" ++ Slug id " (World)"
    ∧ Slug id ("Hello! \t" ++ " " ++ " (World)") = "hello_world" :=
  ⟨by decide, by decide, slug_composes id "Hello! \t" " (World)" (by decide) (by decide),
    by decide⟩

end Slugify
